import Mathlib

/-!
Shallow embedding of the bech32 text-encoding layer of
`zcash_client_backend/src/encoding.rs`, together with the pieces of the
encode/decode core that the source consumes (`convert_bits`, the bech32
checksummed text codec) and the external collaborators it delegates to
(curve-point and extended-key byte codecs), which are modelled from the
specification where their code is not part of the shown source.

Machine integers (`u8`, `u32`) are embedded as `Nat` with explicit bounds;
all arithmetic in the algorithms below stays well inside 32 bits, so no
wrap-around modelling is required (values are built only by masking with
`&&& 0x1ffffff`, `&&& 31`, `&&& 255` and by xor of 30-bit constants).
Fallible Rust code returns `Except Err`; a Rust panic (an `expect`, an
out-of-range slice index) is a distinct outcome, not an error value.
-/

/-- Error kinds of the decode pipeline.  The specification names the seven
kinds `HrpMismatch`, `InvalidCharacter`, `InvalidChecksum`, `InvalidPadding`,
`PointDecodingError`, `NotPrimeOrder`, `KeyDeserializationError`; the parser
additionally has structural failures (missing separator, empty prefix /
too-short data, prefix character out of range, out-of-range symbol value)
which we keep as their own kinds so that no failure is conflated with
another. -/
inductive Err : Type where
  | HrpMismatch
  | InvalidCharacter
  | InvalidChecksum
  | InvalidPadding
  | PointDecodingError
  | NotPrimeOrder
  | KeyDeserializationError
  | MissingSeparator
  | InvalidLength
  | InvalidHrpChar
  | InvalidData
deriving DecidableEq, Repr

/-- Outcome of a decode call: a value, a typed error, or a Rust panic. -/
inductive DResult (T : Type) : Type where
  | ok : T → DResult T
  | err : Err → DResult T
  | panic : DResult T
deriving DecidableEq, Repr

/-! ## 1. Bit-regrouping codec (`bech32::convert_bits`)

Modelled from the spec (section 4.1): the `convert_bits` function of the
bech32 crate, which the source calls with `(8, 5, true)` when encoding and
`(5, 8, false)` when decoding, is not part of the shown source; this is the
published algorithm the spec describes (single big-endian bitstream,
re-sliced into `tb`-bit groups, with the stated padding behaviour). -/

/-- The inner `while bits >= tb { bits -= tb; ret.push((acc >> bits) & maxv) }`
loop: emit full `tb`-bit groups from the top of `acc`, returning the emitted
symbols and the final `bits` value.  The loop consumes at least one bit per
iteration (`tb` is positive at every call site; the `0 < tb` test and the
structural `fuel`, instantiated with `bits` itself, only serve termination). -/
def emitLoopAux (tb maxv acc : Nat) : Nat → Nat → List Nat × Nat
  | 0, bits => ([], bits)
  | fuel + 1, bits =>
    if 0 < tb ∧ tb ≤ bits then
      let rest := emitLoopAux tb maxv acc fuel (bits - tb)
      (((acc >>> (bits - tb)) &&& maxv) :: rest.1, rest.2)
    else
      ([], bits)

def emitLoop (tb maxv acc bits : Nat) : List Nat × Nat :=
  emitLoopAux tb maxv acc bits bits

/-- The per-value loop of `convert_bits`: range-check each input value,
shift it into the accumulator, emit full output groups.  Returns the emitted
symbols together with the final accumulator and bit count. -/
def convertLoop (fr tb maxv : Nat) : List Nat → Nat → Nat → Except Err (List Nat × Nat × Nat)
  | [], acc, bits => .ok ([], acc, bits)
  | v :: rest, acc, bits =>
    if v >>> fr ≠ 0 then
      .error .InvalidData
    else
      let acc' := (acc <<< fr) ||| v
      let e := emitLoop tb maxv acc' (bits + fr)
      match convertLoop fr tb maxv rest acc' e.2 with
      | .ok (out, accF, bitsF) => .ok (e.1 ++ out, accF, bitsF)
      | .error er => .error er

/-- `convert_bits(data, from, tb, pad)`: regroup a big-endian bitstream from
`fr`-bit values into `tb`-bit values.  With `pad` the final partial group is
padded with zero bits on the low end; without `pad` a partial group must be
shorter than `fr` bits and all its bits must be zero, else `InvalidPadding`. -/
def convert_bits (data : List Nat) (fr tb : Nat) (pad : Bool) : Except Err (List Nat) :=
  let maxv := (1 <<< tb) - 1
  match convertLoop fr tb maxv data 0 0 with
  | .error e => .error e
  | .ok (ret, acc, bits) =>
    if pad then
      if bits > 0 then .ok (ret ++ [(acc <<< (tb - bits)) &&& maxv]) else .ok ret
    else if bits ≥ fr then .error .InvalidPadding
    else if (acc <<< (tb - bits)) &&& maxv ≠ 0 then .error .InvalidPadding
    else .ok ret

/-- Big-endian value of a list of `B`-bit groups. -/
def val (B : Nat) (l : List Nat) : Nat :=
  l.foldl (fun n v => n * 2 ^ B + v) 0

/-! ## 2. Checksummed text codec (bech32)

Modelled from the spec (section 4.2): a fixed, published 5-bit-alphabet,
position-weighted polynomial checksum over the prefix and the symbols; text
form `hrp ++ "1" ++ chars`, canonical output lower-case, lenient decoding
that normalises the case of the whole input string before parsing. -/

/-- The conditional xor of the five checksum generator constants, one per set
bit among the top five accumulator bits. -/
def genXor (b : Nat) : Nat :=
  (cond (b.testBit 0) 0x3b6a57b2 0) ^^^ (cond (b.testBit 1) 0x26508e6d 0) ^^^
  (cond (b.testBit 2) 0x1ea119fa 0) ^^^ (cond (b.testBit 3) 0x3d4233dd 0) ^^^
  (cond (b.testBit 4) 0x2a1462b3 0)

/-- One step of the polynomial checksum: shift one 5-bit symbol in, feed the
five outgoing bits back through the generators. -/
def polymodStep (chk v : Nat) : Nat :=
  ((chk &&& 0x1ffffff) <<< 5) ^^^ v ^^^ genXor (chk >>> 25)

def polymodAux : List Nat → Nat → Nat
  | [], chk => chk
  | v :: rest, chk => polymodAux rest (polymodStep chk v)

def polymod (values : List Nat) : Nat := polymodAux values 1

/-- Prefix expansion: high bits of each prefix character, a zero separator,
then the low five bits of each prefix character. -/
def hrpExpand (hrp : List Char) : List Nat :=
  hrp.map (fun c => c.toNat >>> 5) ++ [0] ++ hrp.map (fun c => c.toNat &&& 31)

def createChecksum (hrp : List Char) (data : List Nat) : List Nat :=
  let values := hrpExpand hrp ++ data ++ List.replicate 6 0
  let pm := polymod values ^^^ 1
  (List.range 6).map (fun i => (pm >>> (5 * (5 - i))) &&& 31)

def verifyChecksum (hrp : List Char) (data : List Nat) : Bool :=
  polymod (hrpExpand hrp ++ data) == 1

/-- The fixed 32-character data alphabet. -/
def CHARSET : List Char :=
  ['q', 'p', 'z', 'r', 'y', '9', 'x', '8', 'g', 'f', '2', 't', 'v', 'd', 'w', '0',
   's', '3', 'j', 'n', '5', '4', 'k', 'h', 'c', 'e', '6', 'm', 'u', 'a', '7', 'l']

def toChar (v : Nat) : Char := CHARSET.getD v '?'

def fromChar (c : Char) : Option Nat := CHARSET.indexOf? c

/-! ### Parsed bech32 object, rendering and lenient parsing -/

/-- A parsed bech32 object: prefix and 5-bit data symbols (checksum stripped). -/
structure Bech32Obj : Type where
  hrp : List Char
  data : List Nat
deriving DecidableEq, Repr

def validHrpChar (c : Char) : Bool := 33 ≤ c.toNat && c.toNat ≤ 126

/-- Modelled from the spec: `Bech32::new_check_data`, which the source unwraps
with `expect("hrp is not empty")` — construction fails exactly on an empty
prefix (the spec's sole prefix invariant). -/
def new_check_data (hrp : List Char) (data : List Nat) : Option Bech32Obj :=
  if hrp.isEmpty then none else some ⟨hrp, data⟩

/-- Modelled from the spec: rendering — checksum over prefix and symbols,
symbols mapped through the alphabet, `hrp ++ separator ++ chars`, and the
whole result lower-cased. -/
def bech32ToString (b : Bech32Obj) : List Char :=
  (b.hrp ++ '1' :: (b.data ++ createChecksum b.hrp b.data).map toChar).map Char.toLower

/-- Split at the LAST occurrence of the separator `'1'`. -/
def splitLastSep : List Char → Option (List Char × List Char)
  | [] => none
  | c :: rest =>
    match splitLastSep rest with
    | some (h, d) => some (c :: h, d)
    | none => if c = '1' then some ([], rest) else none

/-- Modelled from the spec: `Bech32::from_str_lenient` — normalise the case of
the whole input, split at the last separator, validate the prefix characters,
map data characters through the alphabet, verify and strip the checksum. -/
def fromStrAux (s : List Char) : Except Err Bech32Obj :=
  let low := s.map Char.toLower
  match splitLastSep low with
  | none => .error .MissingSeparator
  | some (hrp, dataPart) =>
    if hrp.isEmpty then .error .InvalidLength
    else if dataPart.length < 6 then .error .InvalidLength
    else if hrp.all validHrpChar then
      match dataPart.mapM fromChar with
      | none => .error .InvalidCharacter
      | some vals =>
        if verifyChecksum hrp vals then .ok ⟨hrp, vals.take (vals.length - 6)⟩
        else .error .InvalidChecksum
    else .error .InvalidHrpChar

def from_str_lenient (s : String) : Except Err Bech32Obj := fromStrAux s.data

/-! ## 3. The source's `bech32_encode` / `bech32_decode`
(`zcash_client_backend/src/encoding.rs`, lines 12–37) -/

/-- `bech32_encode(hrp, write)`: the writer closure's bytes are regrouped to
5-bit symbols (`expect`), wrapped with `new_check_data` (`expect`), rendered.
`none` models a panic of either `expect`. -/
def bech32_encode (hrp : String) (data : List Nat) : Option String :=
  match convert_bits data 8 5 true with
  | .error _ => none
  | .ok conv =>
    match new_check_data hrp.data conv with
    | none => none
    | some b => some (String.mk (bech32ToString b))

/-- The byte-payload pipeline of `bech32_decode`: lenient parse (`?`), exact
comparison of the parsed prefix with the caller's `hrp`, strict regrouping
(`?`). -/
def bech32_decode_bytes (hrp s : String) : Except Err (List Nat) :=
  match from_str_lenient s with
  | .error e => .error e
  | .ok obj =>
    if obj.hrp = hrp.data then convert_bits obj.data 5 8 false
    else .error .HrpMismatch

/-- `bech32_decode(hrp, s, read)`: run the payload pipeline, then the
entity-specific reader on the decoded bytes. -/
def bech32_decode {T : Type} (hrp s : String) (read : List Nat → DResult T) : DResult T :=
  match bech32_decode_bytes hrp s with
  | .error e => .err e
  | .ok data => read data

/-- A canonical caller-side prefix: non-empty, printable-ASCII characters,
already lower-case. -/
def lowerValidHrp (hrp : List Char) : Bool :=
  !hrp.isEmpty && hrp.all (fun c => validHrpChar c && (Char.toLower c == c))

/-! ## 4. Entity adapters (`encoding.rs`, lines 39–77)

The external collaborators — the extended-key byte codec and the curve-point
codec — are out of scope per the spec ("consumed as black boxes exposing
`read(bytes) -> Result<T, Error>` and `write(T) -> bytes`"); they are
modelled as parameters with exactly that interface. -/

/-- Modelled from the spec: the external extended-key byte codec
(`ExtendedSpendingKey::write/read`, `ExtendedFullViewingKey::write/read`). -/
structure KeyModule (K : Type) : Type where
  write : K → List Nat
  read : List Nat → Except Unit K

/-- Modelled from the spec: the external curve module
(`edwards::Point::write/read` and `as_prime_order`). -/
structure CurveModule (P : Type) : Type where
  write : P → List Nat
  read : List Nat → Except Unit P
  asPrimeOrder : P → Option P

/-- `PaymentAddress { diversifier, pk_d }`; the diversifier is the 11-byte
tag (`Diversifier([u8; 11])`). -/
structure PaymentAddress (P : Type) : Type where
  diversifier : List Nat
  pk_d : P
deriving DecidableEq, Repr

def encode_extended_spending_key {K : Type} (M : KeyModule K) (hrp : String) (extsk : K) :
    Option String :=
  bech32_encode hrp (M.write extsk)

def decode_extended_spending_key {K : Type} (M : KeyModule K) (hrp s : String) : DResult K :=
  bech32_decode hrp s (fun data =>
    match M.read data with
    | .ok k => .ok k
    | .error _ => .err .KeyDeserializationError)

def encode_extended_full_viewing_key {K : Type} (M : KeyModule K) (hrp : String) (extfvk : K) :
    Option String :=
  bech32_encode hrp (M.write extfvk)

def decode_extended_full_viewing_key {K : Type} (M : KeyModule K) (hrp s : String) : DResult K :=
  bech32_decode hrp s (fun data =>
    match M.read data with
    | .ok k => .ok k
    | .error _ => .err .KeyDeserializationError)

def encode_payment_address {P : Type} (M : CurveModule P) (hrp : String)
    (addr : PaymentAddress P) : Option String :=
  bech32_encode hrp (addr.diversifier ++ M.write addr.pk_d)

/-- `decode_payment_address`: the source copies `&data[0..11]` into the
diversifier with an unchecked slice index (which panics when the payload is
shorter than 11 bytes), feeds `&data[11..]` to the curve reader, and demands
a prime-order point. -/
def decode_payment_address {P : Type} (M : CurveModule P) (hrp s : String) :
    DResult (PaymentAddress P) :=
  bech32_decode hrp s (fun data =>
    if data.length < 11 then .panic
    else
      match M.read (data.drop 11) with
      | .ok p =>
        match M.asPrimeOrder p with
        | some pk_d => .ok ⟨data.take 11, pk_d⟩
        | none => .err .NotPrimeOrder
      | .error _ => .err .PointDecodingError)

/-! ### Concrete instances of the external modules (for witnesses) -/

/-- A key that is literally its serialized byte blob. -/
def blobKeyModule : KeyModule (List Nat) where
  write := id
  read := fun l => .ok l

/-- A point that is literally its 32-byte canonical serialization; every
point is prime-order. -/
def listCurveModule : CurveModule (List Nat) where
  write := id
  read := fun l => if 32 ≤ l.length then .ok (l.take 32) else .error ()
  asPrimeOrder := fun p => some p

/-- A curve module whose reader always fails. -/
def failCurveModule : CurveModule (List Nat) where
  write := id
  read := fun _ => .error ()
  asPrimeOrder := fun p => some p

/-- A curve module for which no point is prime-order. -/
def smallOrderCurveModule : CurveModule (List Nat) where
  write := id
  read := fun l => if 32 ≤ l.length then .ok (l.take 32) else .error ()
  asPrimeOrder := fun _ => none

/-! ## 5. Concrete data (the repository's test vector) -/

/-- The fixed mainnet test-vector string of `tests::payment_address`. -/
def mainLit : String :=
  "zs1qqqqqqqqqqqqqqqqqqxrrfaccydp867g6zg7ne5ht37z38jtfyw0ygmp0ja6hhf07twjqj2ug6x"

/-- A well-formed `zs` string with an EMPTY byte payload: `"zs1"` plus the
six checksum characters of the empty symbol list. -/
def shortLit : String := "zs1c3mv0d"

/-- The canonical 32-byte serialization of the test vector's fixed group
element (the bytes embedded in `mainLit` after the 11 zero diversifier
bytes). -/
def pkdBytes : List Nat :=
  [12, 49, 167, 184, 193, 26, 19, 235, 200, 208, 145, 233, 230, 151, 92, 124,
   40, 158, 75, 73, 28, 242, 35, 97, 124, 187, 171, 221, 47, 242, 221, 32]

/-- The all-zero 11-byte diversifier. -/
def zeroDiv : List Nat := List.replicate 11 0

/-- `str.to_uppercase()` on ASCII strings: map `Char.toUpper` over the
characters. -/
def strToUpper (s : String) : String := String.mk (s.data.map Char.toUpper)

/-- The lowercased parsed prefix of a string (empty when parsing fails). -/
def parsedHrp (s : String) : List Char :=
  match from_str_lenient s with
  | .ok obj => obj.hrp
  | .error _ => []

/-! ### Arithmetic bridging lemmas for the bit operations -/

theorem testBit_mul_pow_add (x v k : Nat) (hv : v < 2 ^ k) (i : Nat) :
    (x * 2 ^ k + v).testBit i = if i < k then v.testBit i else x.testBit (i - k) := by
  rcases Nat.lt_or_ge i k with hik | hik
  · rw [if_pos hik, Nat.testBit_to_div_mod, Nat.testBit_to_div_mod]
    have hsplit : 2 ^ (k - i) * 2 ^ i = 2 ^ k := by
      rw [← Nat.pow_add]
      congr 1
      omega
    have h1 : x * 2 ^ k + v = 2 ^ i * (x * 2 ^ (k - i)) + v := by
      rw [← hsplit]
      ring
    rw [h1, Nat.mul_add_div (Nat.two_pow_pos i)]
    obtain ⟨d, hd⟩ : ∃ d, x * 2 ^ (k - i) = 2 * d := by
      obtain ⟨j, hj⟩ : ∃ j, k - i = j + 1 := ⟨k - i - 1, by omega⟩
      exact ⟨x * 2 ^ j, by rw [hj, Nat.pow_succ]; ring⟩
    have h3 : (2 * d + v / 2 ^ i) % 2 = v / 2 ^ i % 2 := by omega
    rw [hd, h3]
  · rw [if_neg (by omega), Nat.testBit_to_div_mod, Nat.testBit_to_div_mod]
    have hsplit : 2 ^ k * 2 ^ (i - k) = 2 ^ i := by
      rw [← Nat.pow_add]
      congr 1
      omega
    have h1 : (x * 2 ^ k + v) / 2 ^ i = x / 2 ^ (i - k) := by
      rw [← hsplit, ← Nat.div_div_eq_div_mul]
      congr 1
      rw [Nat.mul_comm x, Nat.mul_add_div (Nat.two_pow_pos k), Nat.div_eq_of_lt hv,
        Nat.add_zero]
    rw [h1]

theorem xor_mul_pow (x v k : Nat) (hv : v < 2 ^ k) : (x <<< k) ^^^ v = x * 2 ^ k + v := by
  apply Nat.eq_of_testBit_eq
  intro i
  rw [Nat.testBit_xor, Nat.testBit_shiftLeft, testBit_mul_pow_add x v k hv i]
  rcases Nat.lt_or_ge i k with hik | hik
  · rw [if_pos hik]
    have hni : ¬ i ≥ k := by omega
    simp [hni]
  · rw [if_neg (by omega)]
    have hvi : v.testBit i = false :=
      Nat.testBit_lt_two_pow (lt_of_lt_of_le hv (Nat.pow_le_pow_right (by norm_num) hik))
    simp [hik, hvi]

theorem or_mul_pow (x v k : Nat) (hv : v < 2 ^ k) : (x <<< k) ||| v = x * 2 ^ k + v := by
  apply Nat.eq_of_testBit_eq
  intro i
  rw [Nat.testBit_lor, Nat.testBit_shiftLeft, testBit_mul_pow_add x v k hv i]
  rcases Nat.lt_or_ge i k with hik | hik
  · rw [if_pos hik]
    have hni : ¬ i ≥ k := by omega
    simp [hni]
  · rw [if_neg (by omega)]
    have hvi : v.testBit i = false :=
      Nat.testBit_lt_two_pow (lt_of_lt_of_le hv (Nat.pow_le_pow_right (by norm_num) hik))
    simp [hik, hvi]

theorem shiftRight_and_mask (x m t : Nat) : (x >>> m) &&& (2 ^ t - 1) = x / 2 ^ m % 2 ^ t := by
  rw [Nat.shiftRight_eq_div_pow, Nat.and_pow_two_sub_one_eq_mod]

theorem shiftLeft_and_mask (x b t : Nat) (hb : b ≤ t) :
    (x <<< (t - b)) &&& (2 ^ t - 1) = x % 2 ^ b * 2 ^ (t - b) := by
  rw [Nat.shiftLeft_eq, Nat.and_pow_two_sub_one_eq_mod]
  have hsplit : 2 ^ (t - b) * 2 ^ b = 2 ^ t := by
    rw [← Nat.pow_add]
    congr 1
    omega
  rw [← hsplit, Nat.mul_comm (2 ^ (t - b)) (2 ^ b), Nat.mul_mod_mul_right]

theorem mod_pow_split (a m k : Nat) : a % 2 ^ (m + k) = a / 2 ^ m % 2 ^ k * 2 ^ m + a % 2 ^ m := by
  rw [Nat.pow_add, Nat.mod_mul]
  ring

/-! ### Value lemmas for big-endian group lists -/

theorem foldl_val (B : Nat) (l : List Nat) :
    ∀ a, l.foldl (fun n v => n * 2 ^ B + v) a = a * 2 ^ (B * l.length) + val B l := by
  induction l with
  | nil =>
    intro a
    simp [val]
  | cons v t ih =>
    intro a
    simp only [List.foldl_cons, List.length_cons]
    rw [ih (a * 2 ^ B + v)]
    have hv : val B (v :: t) = v * 2 ^ (B * t.length) + val B t := by
      show (v :: t).foldl (fun n v => n * 2 ^ B + v) 0 = _
      simp only [List.foldl_cons]
      rw [ih (0 * 2 ^ B + v)]
      ring
    rw [hv, Nat.mul_succ, Nat.pow_add]
    ring

theorem val_cons (B v : Nat) (l : List Nat) :
    val B (v :: l) = v * 2 ^ (B * l.length) + val B l := by
  show (v :: l).foldl (fun n v => n * 2 ^ B + v) 0 = _
  simp only [List.foldl_cons]
  rw [foldl_val B l (0 * 2 ^ B + v)]
  ring

theorem val_append (B : Nat) (l₁ l₂ : List Nat) :
    val B (l₁ ++ l₂) = val B l₁ * 2 ^ (B * l₂.length) + val B l₂ := by
  rw [val, List.foldl_append]
  exact foldl_val B l₂ _

theorem val_lt (B : Nat) (l : List Nat) (h : ∀ v ∈ l, v < 2 ^ B) :
    val B l < 2 ^ (B * l.length) := by
  induction l with
  | nil =>
    simp [val]
  | cons v t ih =>
    rw [val_cons, List.length_cons, Nat.mul_succ, Nat.pow_add]
    have h1 : v < 2 ^ B := h v (by simp)
    have h2 : val B t < 2 ^ (B * t.length) := ih (fun u hu => h u (List.mem_cons_of_mem _ hu))
    calc v * 2 ^ (B * t.length) + val B t
        < v * 2 ^ (B * t.length) + 2 ^ (B * t.length) := by omega
      _ = (v + 1) * 2 ^ (B * t.length) := by ring
      _ ≤ 2 ^ B * 2 ^ (B * t.length) := Nat.mul_le_mul_right _ (by omega)
      _ = 2 ^ (B * t.length) * 2 ^ B := by ring

theorem val_inj (B : Nat) :
    ∀ (l₁ l₂ : List Nat), (∀ v ∈ l₁, v < 2 ^ B) → (∀ v ∈ l₂, v < 2 ^ B) →
      l₁.length = l₂.length → val B l₁ = val B l₂ → l₁ = l₂ := by
  intro l₁
  induction l₁ with
  | nil =>
    intro l₂ _ _ hlen _
    cases l₂ with
    | nil => rfl
    | cons w u => simp at hlen
  | cons v t ih =>
    intro l₂ h₁ h₂ hlen hval
    cases l₂ with
    | nil => simp at hlen
    | cons w u =>
      have hlen' : t.length = u.length := by simpa using hlen
      rw [val_cons, val_cons, hlen'] at hval
      have hvt : val B t < 2 ^ (B * u.length) := by
        rw [← hlen']
        exact val_lt B t (fun x hx => h₁ x (List.mem_cons_of_mem _ hx))
      have hvu : val B u < 2 ^ (B * u.length) := val_lt B u (fun x hx => h₂ x (List.mem_cons_of_mem _ hx))
      have hK : (0 : Nat) < 2 ^ (B * u.length) := Nat.two_pow_pos _
      have e1 : (v * 2 ^ (B * u.length) + val B t) / 2 ^ (B * u.length) = v := by
        rw [Nat.mul_comm v, Nat.mul_add_div hK, Nat.div_eq_of_lt hvt, Nat.add_zero]
      have e2 : (w * 2 ^ (B * u.length) + val B u) / 2 ^ (B * u.length) = w := by
        rw [Nat.mul_comm w, Nat.mul_add_div hK, Nat.div_eq_of_lt hvu, Nat.add_zero]
      have hvw : v = w := by rw [← e1, hval, e2]
      subst hvw
      have htail : val B t = val B u := by omega
      rw [ih u (fun x hx => h₁ x (List.mem_cons_of_mem _ hx))
        (fun x hx => h₂ x (List.mem_cons_of_mem _ hx)) hlen' htail]

/-! ### Specification of `emitLoop` and `convertLoop` -/

theorem emitLoopAux_spec (tb acc : Nat) (htb : 0 < tb) :
    ∀ fuel bits, bits ≤ fuel →
    ∃ out r, emitLoopAux tb (2 ^ tb - 1) acc fuel bits = (out, r) ∧
      r = bits % tb ∧
      tb * out.length + r = bits ∧
      (∀ v ∈ out, v < 2 ^ tb) ∧
      val tb out = acc % 2 ^ bits / 2 ^ r := by
  intro fuel
  induction fuel with
  | zero =>
    intro bits hf
    obtain rfl : bits = 0 := by omega
    refine ⟨[], 0, rfl, by simp, by simp, by simp, by simp [val, Nat.mod_one]⟩
  | succ fuel ih =>
    intro bits hf
    simp only [emitLoopAux]
    by_cases h : tb ≤ bits
    · rw [if_pos ⟨htb, h⟩]
      obtain ⟨out', r', heq, hr', hlen', hmem', hval'⟩ := ih (bits - tb) (by omega)
      have hr : bits % tb = (bits - tb) % tb := by
        conv_lhs => rw [show bits = (bits - tb) + tb by omega]
        rw [Nat.add_mod_right]
      simp only [heq]
      refine ⟨((acc >>> (bits - tb)) &&& (2 ^ tb - 1)) :: out', r', rfl, by rw [hr', hr], ?_, ?_, ?_⟩
      · rw [List.length_cons, Nat.mul_succ]
        omega
      · intro x hx
        rcases List.mem_cons.mp hx with hx | hx
        · rw [hx, shiftRight_and_mask]
          exact Nat.mod_lt _ (Nat.two_pow_pos tb)
        · exact hmem' x hx
      · rw [val_cons, hval', shiftRight_and_mask]
        have hmodsplit : acc % 2 ^ bits
            = acc / 2 ^ (bits - tb) % 2 ^ tb * 2 ^ (bits - tb) + acc % 2 ^ (bits - tb) := by
          conv_lhs => rw [show bits = (bits - tb) + tb by omega]
          rw [mod_pow_split]
        rw [hmodsplit]
        have hrle : r' ≤ bits - tb := by
          rw [hr']
          exact Nat.mod_le _ _
        have hexp : 2 ^ (bits - tb) = 2 ^ (tb * out'.length) * 2 ^ r' := by
          rw [← Nat.pow_add]
          congr 1
          omega
        have hnum : acc / 2 ^ (bits - tb) % 2 ^ tb * 2 ^ (bits - tb) + acc % 2 ^ (bits - tb)
            = 2 ^ r' * (acc / 2 ^ (bits - tb) % 2 ^ tb * 2 ^ (tb * out'.length))
              + acc % 2 ^ (bits - tb) := by
          rw [hexp]
          ring
        rw [hnum, Nat.mul_add_div (Nat.two_pow_pos r')]
    · rw [if_neg (by omega)]
      have hlt : bits < tb := by omega
      refine ⟨[], bits, rfl, (Nat.mod_eq_of_lt hlt).symm, ?_, by simp, ?_⟩
      · simp
      · exact (Nat.div_eq_of_lt (Nat.mod_lt _ (Nat.two_pow_pos bits))).symm

theorem emitLoop_spec (tb acc bits : Nat) (htb : 0 < tb) :
    ∃ out r, emitLoop tb (2 ^ tb - 1) acc bits = (out, r) ∧
      r = bits % tb ∧
      tb * out.length + r = bits ∧
      (∀ v ∈ out, v < 2 ^ tb) ∧
      val tb out = acc % 2 ^ bits / 2 ^ r :=
  emitLoopAux_spec tb acc htb bits bits (Nat.le_refl bits)

theorem convertLoop_spec (fr tb : Nat) (htb : 0 < tb) :
    ∀ (data : List Nat) (acc bits : Nat), (∀ v ∈ data, v < 2 ^ fr) → bits < tb →
    ∃ out accF bitsF,
      convertLoop fr tb (2 ^ tb - 1) data acc bits = .ok (out, accF, bitsF) ∧
      bitsF < tb ∧
      tb * out.length + bitsF = bits + fr * data.length ∧
      (∀ v ∈ out, v < 2 ^ tb) ∧
      val tb out * 2 ^ bitsF + accF % 2 ^ bitsF
        = acc % 2 ^ bits * 2 ^ (fr * data.length) + val fr data := by
  intro data
  induction data with
  | nil =>
    intro acc bits _ hb
    refine ⟨[], acc, bits, rfl, hb, by simp, by simp, ?_⟩
    simp [val]
  | cons v rest ihr =>
    intro acc bits hd hb
    have hv : v < 2 ^ fr := hd v (by simp)
    have hcheck : ¬ (v >>> fr ≠ 0) := by
      rw [Nat.shiftRight_eq_div_pow]
      simp [Nat.div_eq_of_lt hv]
    simp only [convertLoop]
    rw [if_neg hcheck, or_mul_pow acc v fr hv]
    obtain ⟨out₁, r₁, heq₁, hr₁, hlen₁, hmem₁, hval₁⟩ :=
      emitLoop_spec tb (acc * 2 ^ fr + v) (bits + fr) htb
    have hr₁lt : r₁ < tb := by
      rw [hr₁]
      exact Nat.mod_lt _ htb
    obtain ⟨out₂, accF, bitsF, heq₂, hbF, hlen₂, hmem₂, hval₂⟩ :=
      ihr (acc * 2 ^ fr + v) r₁ (fun u hu => hd u (List.mem_cons_of_mem _ hu)) hr₁lt
    simp only [heq₁, heq₂]
    refine ⟨out₁ ++ out₂, accF, bitsF, rfl, hbF, ?_, ?_, ?_⟩
    · rw [List.length_append, List.length_cons, Nat.mul_add, Nat.mul_succ]
      omega
    · intro x hx
      rcases List.mem_append.mp hx with hx | hx
      · exact hmem₁ x hx
      · exact hmem₂ x hx
    · have hC : (acc * 2 ^ fr + v) % 2 ^ (bits + fr) = acc % 2 ^ bits * 2 ^ fr + v := by
        rw [Nat.add_comm bits fr, mod_pow_split]
        have hdiv : (acc * 2 ^ fr + v) / 2 ^ fr = acc := by
          rw [Nat.mul_comm acc, Nat.mul_add_div (Nat.two_pow_pos fr), Nat.div_eq_of_lt hv,
            Nat.add_zero]
        have hmod : (acc * 2 ^ fr + v) % 2 ^ fr = v := by
          rw [Nat.mul_comm acc, Nat.mul_add_mod, Nat.mod_eq_of_lt hv]
        rw [hdiv, hmod]
      have hmodr : (acc * 2 ^ fr + v) % 2 ^ r₁ = (acc * 2 ^ fr + v) % 2 ^ (bits + fr) % 2 ^ r₁ := by
        rw [Nat.mod_mod_of_dvd _ (Nat.pow_dvd_pow 2 (by rw [hr₁]; exact Nat.mod_le _ _))]
      have hexp : 2 ^ (tb * out₂.length) * 2 ^ bitsF = 2 ^ r₁ * 2 ^ (fr * rest.length) := by
        rw [← Nat.pow_add, ← Nat.pow_add]
        exact congrArg (fun e => 2 ^ e) (by omega)
      have hDM : (acc * 2 ^ fr + v) % 2 ^ (bits + fr) / 2 ^ r₁ * 2 ^ r₁
            + (acc * 2 ^ fr + v) % 2 ^ (bits + fr) % 2 ^ r₁
          = (acc * 2 ^ fr + v) % 2 ^ (bits + fr) := by
        rw [Nat.mul_comm]
        exact Nat.div_add_mod _ _
      calc val tb (out₁ ++ out₂) * 2 ^ bitsF + accF % 2 ^ bitsF
          = val tb out₁ * (2 ^ (tb * out₂.length) * 2 ^ bitsF)
            + (val tb out₂ * 2 ^ bitsF + accF % 2 ^ bitsF) := by
            rw [val_append]
            ring
        _ = val tb out₁ * (2 ^ r₁ * 2 ^ (fr * rest.length))
            + ((acc * 2 ^ fr + v) % 2 ^ r₁ * 2 ^ (fr * rest.length) + val fr rest) := by
            rw [hexp, hval₂]
        _ = (val tb out₁ * 2 ^ r₁ + (acc * 2 ^ fr + v) % 2 ^ r₁) * 2 ^ (fr * rest.length)
            + val fr rest := by
            ring
        _ = (acc * 2 ^ fr + v) % 2 ^ (bits + fr) * 2 ^ (fr * rest.length) + val fr rest := by
            rw [hval₁, hmodr, hDM]
        _ = (acc % 2 ^ bits * 2 ^ fr + v) * 2 ^ (fr * rest.length) + val fr rest := by
            rw [hC]
        _ = acc % 2 ^ bits * 2 ^ (fr * (v :: rest).length) + val fr (v :: rest) := by
            rw [val_cons fr v rest, List.length_cons, Nat.mul_succ, Nat.pow_add]
            ring

theorem val_singleton (B x : Nat) : val B [x] = x := by
  simp [val]

theorem shiftLeft_one_sub_one (tb : Nat) : (1 <<< tb) - 1 = 2 ^ tb - 1 := by
  rw [Nat.shiftLeft_eq, Nat.one_mul]

/-- Forward regrouping with padding: total on in-range inputs, every output
symbol is in range, and the output is the input bitstream padded on the low
end with `(tb - fr*n % tb) % tb` zero bits. -/
theorem convert_bits_pad_spec (fr tb : Nat) (htb : 0 < tb) (data : List Nat)
    (hd : ∀ v ∈ data, v < 2 ^ fr) :
    ∃ S, convert_bits data fr tb true = .ok S ∧
      (∀ v ∈ S, v < 2 ^ tb) ∧
      tb * S.length = fr * data.length + (tb - fr * data.length % tb) % tb ∧
      val tb S = val fr data * 2 ^ ((tb - fr * data.length % tb) % tb) := by
  obtain ⟨out, accF, bitsF, heq, hbF, hlen, hmem, hval⟩ :=
    convertLoop_spec fr tb htb data 0 0 hd htb
  have hval0 : val tb out * 2 ^ bitsF + accF % 2 ^ bitsF = val fr data := by
    rw [hval]
    norm_num
  simp only [convert_bits, shiftLeft_one_sub_one, heq]
  rw [if_pos trivial]
  by_cases hbz : bitsF = 0
  · have hmod0 : fr * data.length % tb = 0 := by
      have h1 : fr * data.length = tb * out.length := by omega
      rw [h1, Nat.mul_mod_right]
    rw [if_neg (by omega)]
    refine ⟨out, rfl, hmem, ?_, ?_⟩
    · rw [hmod0, Nat.sub_zero, Nat.mod_self]
      omega
    · rw [hmod0, Nat.sub_zero, Nat.mod_self, Nat.pow_zero, Nat.mul_one]
      subst hbz
      rw [Nat.pow_zero, Nat.mul_one] at hval0
      omega
  · have hmodE : fr * data.length % tb = bitsF := by
      have h1 : fr * data.length = tb * out.length + bitsF := by omega
      rw [h1, Nat.mul_add_mod, Nat.mod_eq_of_lt hbF]
    have hpad : (tb - fr * data.length % tb) % tb = tb - bitsF := by
      rw [hmodE]
      exact Nat.mod_eq_of_lt (by omega)
    rw [if_pos (by omega)]
    refine ⟨out ++ [(accF <<< (tb - bitsF)) &&& (2 ^ tb - 1)], rfl, ?_, ?_, ?_⟩
    · intro x hx
      rcases List.mem_append.mp hx with hx | hx
      · exact hmem x hx
      · rw [List.mem_singleton.mp hx,
          shiftLeft_and_mask accF bitsF tb (le_of_lt hbF)]
        calc accF % 2 ^ bitsF * 2 ^ (tb - bitsF)
            < 2 ^ bitsF * 2 ^ (tb - bitsF) :=
              mul_lt_mul_of_pos_right (Nat.mod_lt _ (Nat.two_pow_pos _)) (Nat.two_pow_pos _)
          _ = 2 ^ tb := by
              rw [← Nat.pow_add]
              exact congrArg (fun e => 2 ^ e) (by omega)
    · rw [hpad, List.length_append, List.length_singleton]
      have : tb * out.length + bitsF = fr * data.length := by omega
      rw [Nat.mul_add, Nat.mul_one]
      omega
    · rw [hpad, val_append, val_singleton,
        shiftLeft_and_mask accF bitsF tb (le_of_lt hbF), List.length_singleton, Nat.mul_one]
      have hsplit : 2 ^ tb = 2 ^ bitsF * 2 ^ (tb - bitsF) := by
        rw [← Nat.pow_add]
        exact congrArg (fun e => 2 ^ e) (by omega)
      rw [hsplit, ← hval0]
      ring

/-- Strict (no-pad) regrouping: it fails, always with `InvalidPadding`,
exactly when the leftover bit count reaches the input group width or the
leftover bits are non-zero; otherwise it succeeds and the output carries the
whole bytes of the input bitstream. -/
theorem convert_bits_nopad_spec (fr tb : Nat) (htb : 0 < tb) (S : List Nat)
    (hs : ∀ v ∈ S, v < 2 ^ fr) :
    (convert_bits S fr tb false = .error .InvalidPadding
      ↔ fr ≤ fr * S.length % tb ∨ val fr S % 2 ^ (fr * S.length % tb) ≠ 0) ∧
    (∀ e, convert_bits S fr tb false = .error e → e = .InvalidPadding) ∧
    (∀ out, convert_bits S fr tb false = .ok out →
      tb * out.length + fr * S.length % tb = fr * S.length ∧
      (∀ v ∈ out, v < 2 ^ tb) ∧
      val tb out = val fr S / 2 ^ (fr * S.length % tb)) := by
  obtain ⟨out, accF, bitsF, heq, hbF, hlen, hmem, hval⟩ :=
    convertLoop_spec fr tb htb S 0 0 hs htb
  have hval0 : val tb out * 2 ^ bitsF + accF % 2 ^ bitsF = val fr S := by
    rw [hval]
    norm_num
  have hmodE : fr * S.length % tb = bitsF := by
    have h1 : fr * S.length = tb * out.length + bitsF := by omega
    rw [h1, Nat.mul_add_mod, Nat.mod_eq_of_lt hbF]
  have hleft : accF % 2 ^ bitsF = val fr S % 2 ^ bitsF := by
    rw [← hval0, Nat.mul_add_mod' (val tb out) (2 ^ bitsF) (accF % 2 ^ bitsF),
      Nat.mod_mod_of_dvd _ dvd_rfl]
  simp only [convert_bits, shiftLeft_one_sub_one, heq, Bool.false_eq_true, if_false]
  rw [hmodE]
  by_cases h1 : fr ≤ bitsF
  · rw [if_pos h1]
    refine ⟨⟨fun _ => Or.inl h1, fun _ => rfl⟩, fun e he => ?_, fun o ho => ?_⟩
    · cases he
      rfl
    · cases ho
  · rw [if_neg h1]
    have hzero : (accF <<< (tb - bitsF)) &&& (2 ^ tb - 1) = 0 ↔ val fr S % 2 ^ bitsF = 0 := by
      rw [shiftLeft_and_mask accF bitsF tb (by omega), hleft]
      constructor
      · intro h
        exact (Nat.mul_eq_zero.mp h).resolve_right (by
          intro hc
          exact absurd hc (Nat.pos_iff_ne_zero.mp (Nat.two_pow_pos _)))
      · intro h
        rw [h, Nat.zero_mul]
    by_cases h2 : val fr S % 2 ^ bitsF = 0
    · rw [if_neg (by rw [Ne, hzero]; exact fun hc => hc h2)]
      refine ⟨⟨fun hc => ?_, fun hc => ?_⟩, fun e he => ?_, fun o ho => ?_⟩
      · cases hc
      · rcases hc with hc | hc
        · exact absurd hc h1
        · exact absurd h2 hc
      · cases he
      · cases ho
        refine ⟨by omega, hmem, ?_⟩
        rw [← hval0, hleft, h2, Nat.add_zero, Nat.mul_div_cancel _ (Nat.two_pow_pos _)]
    · rw [if_pos (by rw [Ne, hzero]; exact fun hc => h2 hc)]
      refine ⟨⟨fun _ => Or.inr h2, fun _ => rfl⟩, fun e he => ?_, fun o ho => ?_⟩
      · cases he
        rfl
      · cases ho

/-- Round trip of the regrouping codec: strict un-grouping inverts padded
grouping (for group widths `tb ≤ fr`, as used with bytes and 5-bit symbols). -/
theorem convert_bits_roundtrip (fr tb : Nat) (htb : 0 < tb) (htf : tb ≤ fr)
    (data S : List Nat) (hd : ∀ v ∈ data, v < 2 ^ fr)
    (henc : convert_bits data fr tb true = .ok S) :
    convert_bits S tb fr false = .ok data := by
  obtain ⟨S₀, henc₀, hmemS, hlenS, hvalS⟩ := convert_bits_pad_spec fr tb htb data hd
  rw [henc₀] at henc
  obtain rfl : S = S₀ := (Except.ok.inj henc).symm
  set p := (tb - fr * data.length % tb) % tb with hp
  have hplt : p < tb := Nat.mod_lt _ htb
  have hfr0 : 0 < fr := lt_of_lt_of_le htb htf
  obtain ⟨hiff, herr, hok⟩ := convert_bits_nopad_spec tb fr hfr0 S hmemS
  have hcnt : tb * S.length % fr = p := by
    rw [hlenS, Nat.add_comm, Nat.add_mul_mod_self_left]
    exact Nat.mod_eq_of_lt (by omega)
  have hleft : val tb S % 2 ^ p = 0 := by
    rw [hvalS, Nat.mul_mod_left]
  cases hres : convert_bits S tb fr false with
  | error e =>
    exfalso
    have he := herr e hres
    subst he
    rcases hiff.mp hres with hc | hc
    · rw [hcnt] at hc
      omega
    · rw [hcnt] at hc
      exact hc hleft
  | ok out =>
    obtain ⟨hlen2, hmem2, hval2⟩ := hok out hres
    rw [hcnt] at hlen2 hval2
    have hlength : out.length = data.length := by
      apply Nat.eq_of_mul_eq_mul_left hfr0
      omega
    have hvals : val fr out = val fr data := by
      rw [hval2, hvalS, Nat.mul_div_cancel _ (Nat.two_pow_pos p)]
    exact congrArg Except.ok (val_inj fr out data hmem2 hd hlength hvals)

/-! ### Linearity of the checksum over xor -/

theorem cond_xor_distrib (x y : Bool) (G : Nat) :
    cond (x ^^ y) G 0 = cond x G 0 ^^^ cond y G 0 := by
  cases x <;> cases y <;> simp [Nat.xor_self]

theorem shiftLeft_xor_distrib (a b k : Nat) : (a ^^^ b) <<< k = (a <<< k) ^^^ (b <<< k) := by
  apply Nat.eq_of_testBit_eq
  intro i
  simp only [Nat.testBit_shiftLeft, Nat.testBit_xor]
  cases decide (i ≥ k) <;> simp

theorem shiftRight_xor_distrib (a b k : Nat) : (a ^^^ b) >>> k = (a >>> k) ^^^ (b >>> k) := by
  apply Nat.eq_of_testBit_eq
  intro i
  simp [Nat.testBit_shiftRight, Nat.testBit_xor]

theorem nat_xor_left_comm (a b c : Nat) : a ^^^ (b ^^^ c) = b ^^^ (a ^^^ c) := by
  rw [← Nat.xor_assoc, Nat.xor_comm a b, Nat.xor_assoc]

theorem genXor_xor (a b : Nat) : genXor (a ^^^ b) = genXor a ^^^ genXor b := by
  unfold genXor
  simp only [Nat.testBit_xor, cond_xor_distrib]
  simp only [Nat.xor_assoc, Nat.xor_comm, nat_xor_left_comm]

theorem polymodStep_xor (a b v w : Nat) :
    polymodStep (a ^^^ b) (v ^^^ w) = polymodStep a v ^^^ polymodStep b w := by
  unfold polymodStep
  rw [Nat.and_xor_distrib_right, shiftLeft_xor_distrib, shiftRight_xor_distrib, genXor_xor]
  simp only [Nat.xor_assoc, Nat.xor_comm, nat_xor_left_comm]

theorem polymodAux_zipXor :
    ∀ (l₁ l₂ : List Nat), l₁.length = l₂.length → ∀ a b,
      polymodAux (List.zipWith (· ^^^ ·) l₁ l₂) (a ^^^ b) = polymodAux l₁ a ^^^ polymodAux l₂ b := by
  intro l₁
  induction l₁ with
  | nil =>
    intro l₂ hlen a b
    cases l₂ with
    | nil => simp [polymodAux]
    | cons w u => simp at hlen
  | cons v t ih =>
    intro l₂ hlen a b
    cases l₂ with
    | nil => simp at hlen
    | cons w u =>
      simp only [List.zipWith_cons_cons, polymodAux]
      rw [polymodStep_xor]
      exact ih u (by simpa using hlen) _ _

theorem polymodAux_append (l₁ l₂ : List Nat) (c : Nat) :
    polymodAux (l₁ ++ l₂) c = polymodAux l₂ (polymodAux l₁ c) := by
  induction l₁ generalizing c with
  | nil => simp [polymodAux]
  | cons v t ih => simp [polymodAux, ih]

theorem zipWith_xor_replicate_zero (l : List Nat) :
    List.zipWith (· ^^^ ·) (List.replicate l.length 0) l = l := by
  induction l with
  | nil => simp
  | cons v t ih => simpa [List.replicate_succ] using ih

theorem polymodStep_small (chk v : Nat) (hchk : chk < 2 ^ 25) (hv : v < 2 ^ 5) :
    polymodStep chk v = chk * 2 ^ 5 + v := by
  unfold polymodStep
  have h0 : chk >>> 25 = 0 := by
    rw [Nat.shiftRight_eq_div_pow]
    exact Nat.div_eq_of_lt hchk
  have hand : chk &&& 0x1ffffff = chk := by
    rw [show (0x1ffffff : Nat) = 2 ^ 25 - 1 by norm_num, Nat.and_pow_two_sub_one_eq_mod]
    exact Nat.mod_eq_of_lt hchk
  rw [h0, hand, show genXor 0 = 0 by decide, Nat.xor_zero]
  exact xor_mul_pow chk v 5 hv

theorem polymodAux_chunks (P : Nat) (hP : P < 2 ^ 30) :
    polymodAux ((List.range 6).map (fun i => (P >>> (5 * (5 - i))) &&& 31)) 0 = P := by
  have h31 : ∀ x : Nat, x &&& 31 = x % 2 ^ 5 := fun x => by
    rw [show (31 : Nat) = 2 ^ 5 - 1 by norm_num, Nat.and_pow_two_sub_one_eq_mod]
  have hlist : (List.range 6).map (fun i => (P >>> (5 * (5 - i))) &&& 31)
      = [(P >>> 25) &&& 31, (P >>> 20) &&& 31, (P >>> 15) &&& 31,
         (P >>> 10) &&& 31, (P >>> 5) &&& 31, (P >>> 0) &&& 31] := by
    rfl
  have hstep : ∀ m n, n = m + 5 → n ≤ 30 →
      polymodStep (P / 2 ^ n) ((P >>> m) &&& 31) = P / 2 ^ m := by
    intro m n hn hn30
    subst hn
    rw [h31, Nat.shiftRight_eq_div_pow]
    rw [polymodStep_small _ _ ?hb (Nat.mod_lt _ (by norm_num))]
    · have hdd : P / 2 ^ (m + 5) = P / 2 ^ m / 2 ^ 5 := by
        rw [Nat.div_div_eq_div_mul, ← Nat.pow_add]
      rw [hdd]
      conv_lhs => rw [Nat.mul_comm]
      exact Nat.div_add_mod _ _
    case hb =>
      have hle : (2 : Nat) ^ 30 ≤ 2 ^ 25 * 2 ^ (m + 5) := by
        rw [← Nat.pow_add]
        exact Nat.pow_le_pow_right (by norm_num) (by omega)
      exact (Nat.div_lt_iff_lt_mul (Nat.two_pow_pos _)).mpr (lt_of_lt_of_le hP hle)
  have e1 : polymodStep 0 ((P >>> 25) &&& 31) = P / 2 ^ 25 := by
    rw [show (0 : Nat) = P / 2 ^ 30 from (Nat.div_eq_of_lt hP).symm]
    exact hstep 25 30 rfl (by norm_num)
  have e2 : polymodStep (P / 2 ^ 25) ((P >>> 20) &&& 31) = P / 2 ^ 20 :=
    hstep 20 25 rfl (by norm_num)
  have e3 : polymodStep (P / 2 ^ 20) ((P >>> 15) &&& 31) = P / 2 ^ 15 :=
    hstep 15 20 rfl (by norm_num)
  have e4 : polymodStep (P / 2 ^ 15) ((P >>> 10) &&& 31) = P / 2 ^ 10 :=
    hstep 10 15 rfl (by norm_num)
  have e5 : polymodStep (P / 2 ^ 10) ((P >>> 5) &&& 31) = P / 2 ^ 5 :=
    hstep 5 10 rfl (by norm_num)
  have e6 : polymodStep (P / 2 ^ 5) ((P >>> 0) &&& 31) = P / 2 ^ 0 :=
    hstep 0 5 rfl (by norm_num)
  rw [hlist]
  simp only [polymodAux]
  rw [e1, e2, e3, e4, e5, e6]
  norm_num

theorem genXor_lt (b : Nat) : genXor b < 2 ^ 30 := by
  unfold genXor
  have h1 : (cond (b.testBit 0) 0x3b6a57b2 0) < 2 ^ 30 := by cases b.testBit 0 <;> norm_num
  have h2 : (cond (b.testBit 1) 0x26508e6d 0) < 2 ^ 30 := by cases b.testBit 1 <;> norm_num
  have h3 : (cond (b.testBit 2) 0x1ea119fa 0) < 2 ^ 30 := by cases b.testBit 2 <;> norm_num
  have h4 : (cond (b.testBit 3) 0x3d4233dd 0) < 2 ^ 30 := by cases b.testBit 3 <;> norm_num
  have h5 : (cond (b.testBit 4) 0x2a1462b3 0) < 2 ^ 30 := by cases b.testBit 4 <;> norm_num
  exact Nat.xor_lt_two_pow
    (Nat.xor_lt_two_pow (Nat.xor_lt_two_pow (Nat.xor_lt_two_pow h1 h2) h3) h4) h5

theorem polymodStep_lt (chk v : Nat) (hv : v < 2 ^ 30) : polymodStep chk v < 2 ^ 30 := by
  unfold polymodStep
  have h1 : ((chk &&& 0x1ffffff) <<< 5) < 2 ^ 30 := by
    rw [show (0x1ffffff : Nat) = 2 ^ 25 - 1 by norm_num, Nat.and_pow_two_sub_one_eq_mod,
      Nat.shiftLeft_eq]
    calc chk % 2 ^ 25 * 2 ^ 5
        < 2 ^ 25 * 2 ^ 5 := mul_lt_mul_of_pos_right (Nat.mod_lt _ (by norm_num)) (by norm_num)
      _ = 2 ^ 30 := by norm_num
  exact Nat.xor_lt_two_pow (Nat.xor_lt_two_pow h1 hv) (genXor_lt _)

theorem polymodAux_lt (l : List Nat) :
    ∀ c, c < 2 ^ 30 → (∀ v ∈ l, v < 2 ^ 30) → polymodAux l c < 2 ^ 30 := by
  induction l with
  | nil =>
    intro c hc _
    exact hc
  | cons v t ih =>
    intro c hc hl
    exact ih _ (polymodStep_lt c v (hl v (by simp)))
      (fun u hu => hl u (List.mem_cons_of_mem _ hu))

theorem createChecksum_length (hrp : List Char) (data : List Nat) :
    (createChecksum hrp data).length = 6 := by
  simp [createChecksum]

theorem createChecksum_mem (hrp : List Char) (data : List Nat) :
    ∀ v ∈ createChecksum hrp data, v < 2 ^ 5 := by
  intro v hv
  simp only [createChecksum, List.mem_map] at hv
  obtain ⟨i, _, rfl⟩ := hv
  rw [show (31 : Nat) = 2 ^ 5 - 1 by norm_num, Nat.and_pow_two_sub_one_eq_mod]
  exact Nat.mod_lt _ (by norm_num)

theorem hrpExpand_mem (hrp : List Char) (hhrp : ∀ c ∈ hrp, c.toNat < 2 ^ 30) :
    ∀ v ∈ hrpExpand hrp, v < 2 ^ 30 := by
  intro v hv
  unfold hrpExpand at hv
  rcases List.mem_append.mp hv with hv | hv
  · rcases List.mem_append.mp hv with hv | hv
    · obtain ⟨c, hc, rfl⟩ := List.mem_map.mp hv
      refine lt_of_le_of_lt ?_ (hhrp c hc)
      rw [Nat.shiftRight_eq_div_pow]
      exact Nat.div_le_self _ _
    · rw [List.mem_singleton.mp hv]
      norm_num
  · obtain ⟨c, hc, rfl⟩ := List.mem_map.mp hv
    calc c.toNat &&& 31 = c.toNat % 2 ^ 5 := by
          rw [show (31 : Nat) = 2 ^ 5 - 1 by norm_num, Nat.and_pow_two_sub_one_eq_mod]
      _ < 2 ^ 5 := Nat.mod_lt _ (by norm_num)
      _ < 2 ^ 30 := by norm_num

/-- The appended checksum verifies: `verify(hrp, data ++ create(hrp, data))`. -/
theorem verifyChecksum_create (hrp : List Char) (data : List Nat)
    (hhrp : ∀ c ∈ hrp, c.toNat < 2 ^ 30) (hd : ∀ v ∈ data, v < 2 ^ 30) :
    verifyChecksum hrp (data ++ createChecksum hrp data) = true := by
  unfold verifyChecksum
  simp only [beq_iff_eq]
  rw [← List.append_assoc, polymod, polymodAux_append]
  have hMlt : polymodAux (hrpExpand hrp ++ data) 1 < 2 ^ 30 := by
    apply polymodAux_lt _ _ (by norm_num)
    intro v hv
    rcases List.mem_append.mp hv with hv | hv
    · exact hrpExpand_mem hrp hhrp v hv
    · exact hd v hv
  have hP : polymod (hrpExpand hrp ++ data ++ List.replicate 6 0)
      = polymodAux (List.replicate 6 0) (polymodAux (hrpExpand hrp ++ data) 1) := by
    rw [polymod, polymodAux_append]
  have hPlt : polymod (hrpExpand hrp ++ data ++ List.replicate 6 0) ^^^ 1 < 2 ^ 30 := by
    apply Nat.xor_lt_two_pow _ (by norm_num)
    rw [hP]
    apply polymodAux_lt _ _ hMlt
    intro v hv
    rw [(List.mem_replicate.mp hv).2]
    norm_num
  have hchunks : polymodAux (createChecksum hrp data) 0
      = polymod (hrpExpand hrp ++ data ++ List.replicate 6 0) ^^^ 1 := by
    simp only [createChecksum]
    exact polymodAux_chunks _ hPlt
  have hzip : List.zipWith (· ^^^ ·) (List.replicate 6 0) (createChecksum hrp data)
      = createChecksum hrp data := by
    conv_lhs =>
      rw [show (6 : Nat) = (createChecksum hrp data).length from
        (createChecksum_length hrp data).symm]
    exact zipWith_xor_replicate_zero _
  have hsplit := polymodAux_zipXor (List.replicate 6 0) (createChecksum hrp data)
    (by simp [createChecksum_length]) (polymodAux (hrpExpand hrp ++ data) 1) 0
  rw [hzip, Nat.xor_zero] at hsplit
  rw [hsplit, hchunks, hP]
  exact Nat.xor_cancel_left _ _

/-! ### Character-level facts (by computation over the finite alphabet) -/

theorem toChar_lower : ∀ v < 32, Char.toLower (toChar v) = toChar v := by decide

theorem toChar_ne_sep : ∀ v < 32, toChar v ≠ '1' := by decide

theorem fromChar_toChar : ∀ v < 32, fromChar (toChar v) = some v := by decide

theorem toLower_idem_ascii (c : Char) (h2 : c.toNat ≤ 126) :
    Char.toLower (Char.toLower c) = Char.toLower c := by
  have hdec : ∀ n < 127, Char.toLower (Char.toLower (Char.ofNat n)) = Char.toLower (Char.ofNat n) := by
    decide
  have h := hdec c.toNat (by omega)
  rwa [Char.ofNat_toNat] at h

theorem map_eq_self_of_fixed {α : Type} (f : α → α) :
    ∀ (l : List α), (∀ c ∈ l, f c = c) → l.map f = l := by
  intro l
  induction l with
  | nil => intro _; rfl
  | cons c t ih =>
    intro h
    rw [List.map_cons, h c (by simp), ih (fun x hx => h x (List.mem_cons_of_mem _ hx))]

/-! ### Parsing a rendered string -/

theorem splitLastSep_none (l : List Char) (h : ∀ c ∈ l, c ≠ '1') : splitLastSep l = none := by
  induction l with
  | nil => rfl
  | cons c rest ih =>
    simp only [splitLastSep, ih (fun x hx => h x (List.mem_cons_of_mem _ hx))]
    rw [if_neg (h c (List.mem_cons_self c rest))]

theorem splitLastSep_append (pre post : List Char) (hpost : ∀ c ∈ post, c ≠ '1') :
    splitLastSep (pre ++ '1' :: post) = some (pre, post) := by
  induction pre with
  | nil =>
    simp only [List.nil_append, splitLastSep, splitLastSep_none post hpost]
    rw [if_pos trivial]
  | cons c rest ih =>
    simp only [List.cons_append, splitLastSep, List.append_eq, ih]

theorem mapM_fromChar_map_toChar (l : List Nat) (hl : ∀ v ∈ l, v < 32) :
    (l.map toChar).mapM fromChar = some l := by
  induction l with
  | nil => rfl
  | cons v t ih =>
    simp only [List.map_cons, List.mapM_cons,
      fromChar_toChar v (hl v (by simp)),
      ih (fun u hu => hl u (List.mem_cons_of_mem _ hu))]
    rfl

theorem lowerValidHrp_spec (hrp : List Char) (hh : lowerValidHrp hrp = true) :
    hrp.isEmpty = false ∧ ∀ c ∈ hrp, validHrpChar c = true ∧ Char.toLower c = c := by
  simp only [lowerValidHrp, Bool.and_eq_true, List.all_eq_true, beq_iff_eq,
    Bool.not_eq_true'] at hh
  exact ⟨hh.1, fun c hc => (hh.2 c hc)⟩

theorem bech32ToString_fixed (hrp : List Char) (syms : List Nat)
    (hh : lowerValidHrp hrp = true) (hs : ∀ v ∈ syms, v < 32) :
    ∀ c ∈ hrp ++ '1' :: (syms ++ createChecksum hrp syms).map toChar, Char.toLower c = c := by
  obtain ⟨-, hchars⟩ := lowerValidHrp_spec hrp hh
  have hsc : ∀ v ∈ syms ++ createChecksum hrp syms, v < 32 := by
    intro v hv
    rcases List.mem_append.mp hv with hv | hv
    · exact hs v hv
    · have := createChecksum_mem hrp syms v hv
      omega
  intro c hc
  rcases List.mem_append.mp hc with hc | hc
  · exact (hchars c hc).2
  · rcases List.mem_cons.mp hc with rfl | hc
    · decide
    · obtain ⟨v, hv, rfl⟩ := List.mem_map.mp hc
      exact toChar_lower v (hsc v hv)

theorem bech32ToString_eq (hrp : List Char) (syms : List Nat)
    (hh : lowerValidHrp hrp = true) (hs : ∀ v ∈ syms, v < 32) :
    bech32ToString ⟨hrp, syms⟩
      = hrp ++ '1' :: (syms ++ createChecksum hrp syms).map toChar :=
  map_eq_self_of_fixed _ _ (bech32ToString_fixed hrp syms hh hs)

/-- Parsing any string whose case-normalisation is the canonical rendering of
an object returns that object (lower-case valid prefix, in-range symbols). -/
theorem fromStrAux_of_lower (s : List Char) (hrp : List Char) (syms : List Nat)
    (hh : lowerValidHrp hrp = true) (hs : ∀ v ∈ syms, v < 32)
    (hlow : s.map Char.toLower
      = hrp ++ '1' :: (syms ++ createChecksum hrp syms).map toChar) :
    fromStrAux s = .ok ⟨hrp, syms⟩ := by
  obtain ⟨hne, hchars⟩ := lowerValidHrp_spec hrp hh
  have hsc : ∀ v ∈ syms ++ createChecksum hrp syms, v < 32 := by
    intro v hv
    rcases List.mem_append.mp hv with hv | hv
    · exact hs v hv
    · have := createChecksum_mem hrp syms v hv
      omega
  have h1free : ∀ c ∈ (syms ++ createChecksum hrp syms).map toChar, c ≠ '1' := by
    intro c hc
    obtain ⟨v, hv, rfl⟩ := List.mem_map.mp hc
    exact toChar_ne_sep v (hsc v hv)
  have hallv : hrp.all validHrpChar = true :=
    List.all_eq_true.mpr (fun c hc => (hchars c hc).1)
  have hlen6 : ¬ ((syms ++ createChecksum hrp syms).map toChar).length < 6 := by
    simp [createChecksum_length]
  have hmapM := mapM_fromChar_map_toChar (syms ++ createChecksum hrp syms) hsc
  have hver : verifyChecksum hrp (syms ++ createChecksum hrp syms) = true := by
    apply verifyChecksum_create
    · intro c hc
      have := (hchars c hc).1
      simp only [validHrpChar, Bool.and_eq_true, decide_eq_true_eq] at this
      calc c.toNat ≤ 126 := this.2
        _ < 2 ^ 30 := by norm_num
    · intro v hv
      have := hs v hv
      calc v < 32 := this
        _ < 2 ^ 30 := by norm_num
  have htake : (syms ++ createChecksum hrp syms).take
      ((syms ++ createChecksum hrp syms).length - 6) = syms := by
    have hl : (syms ++ createChecksum hrp syms).length - 6 = syms.length := by
      simp [createChecksum_length]
    rw [hl, List.take_left]
  simp only [fromStrAux, hlow, splitLastSep_append hrp _ h1free, hne, Bool.false_eq_true,
    if_false, hlen6, hallv, if_true, hmapM, hver, htake]

/-- Parsing a rendered object returns it unchanged. -/
theorem fromStrAux_bech32ToString (hrp : List Char) (syms : List Nat)
    (hh : lowerValidHrp hrp = true) (hs : ∀ v ∈ syms, v < 32) :
    fromStrAux (bech32ToString ⟨hrp, syms⟩) = .ok ⟨hrp, syms⟩ := by
  apply fromStrAux_of_lower _ _ _ hh hs
  rw [bech32ToString_eq hrp syms hh hs]
  exact map_eq_self_of_fixed _ _ (bech32ToString_fixed hrp syms hh hs)

/-- Encode-then-parse at the bech32 level: the payload bytes come back. -/
theorem bech32_roundtrip (hrp : String) (hh : lowerValidHrp hrp.data = true)
    (data : List Nat) (hd : ∀ v ∈ data, v < 256) :
    ∃ s, bech32_encode hrp data = some s ∧ bech32_decode_bytes hrp s = .ok data := by
  obtain ⟨hne, -⟩ := lowerValidHrp_spec hrp.data hh
  have hd' : ∀ v ∈ data, v < 2 ^ 8 := by
    intro v hv
    have := hd v hv
    omega
  obtain ⟨S, hS, hmemS, -, -⟩ := convert_bits_pad_spec 8 5 (by norm_num) data hd'
  have hmemS' : ∀ v ∈ S, v < 32 := by
    intro v hv
    have := hmemS v hv
    omega
  refine ⟨String.mk (bech32ToString ⟨hrp.data, S⟩), ?_, ?_⟩
  · simp only [bech32_encode, hS, new_check_data, hne, Bool.false_eq_true, if_false]
  · simp only [bech32_decode_bytes, from_str_lenient]
    rw [fromStrAux_bech32ToString hrp.data S hh hmemS']
    show (if hrp.data = hrp.data then convert_bits S 5 8 false
      else Except.error Err.HrpMismatch) = Except.ok data
    rw [if_pos rfl]
    exact convert_bits_roundtrip 8 5 (by norm_num) (by norm_num) data S hd' hS

/-- Encode and parse back, exposing the intermediate symbol list and the
rendered string. -/
theorem bech32_encode_parse (hrp : String) (hh : lowerValidHrp hrp.data = true)
    (data : List Nat) (hd : ∀ v ∈ data, v < 256) :
    ∃ S, bech32_encode hrp data = some (String.mk (bech32ToString ⟨hrp.data, S⟩)) ∧
      convert_bits data 8 5 true = .ok S ∧ (∀ v ∈ S, v < 32) ∧
      from_str_lenient (String.mk (bech32ToString ⟨hrp.data, S⟩)) = .ok ⟨hrp.data, S⟩ ∧
      convert_bits S 5 8 false = .ok data := by
  obtain ⟨hne, -⟩ := lowerValidHrp_spec hrp.data hh
  have hd' : ∀ v ∈ data, v < 2 ^ 8 := by
    intro v hv
    have := hd v hv
    omega
  obtain ⟨S, hS, hmemS, -, -⟩ := convert_bits_pad_spec 8 5 (by norm_num) data hd'
  have hmemS' : ∀ v ∈ S, v < 32 := by
    intro v hv
    have := hmemS v hv
    omega
  refine ⟨S, ?_, hS, hmemS', ?_, ?_⟩
  · simp only [bech32_encode, hS, new_check_data, hne, Bool.false_eq_true, if_false]
  · exact fromStrAux_bech32ToString hrp.data S hh hmemS'
  · exact convert_bits_roundtrip 8 5 (by norm_num) (by norm_num) data S hd' hS

/-- `convertLoop` fails only with `InvalidData`. -/
theorem convertLoop_error (fr tb maxv : Nat) :
    ∀ (data : List Nat) (acc bits : Nat) (e : Err),
      convertLoop fr tb maxv data acc bits = .error e → e = .InvalidData := by
  intro data
  induction data with
  | nil =>
    intro acc bits e h
    cases h
  | cons v rest ih =>
    intro acc bits e h
    simp only [convertLoop] at h
    by_cases hc : v >>> fr ≠ 0
    · rw [if_pos hc] at h
      cases h
      rfl
    · rw [if_neg hc] at h
      cases hrec : convertLoop fr tb maxv rest ((acc <<< fr) ||| v)
          (emitLoop tb maxv ((acc <<< fr) ||| v) (bits + fr)).2 with
      | ok t =>
        obtain ⟨o, a2, b2⟩ := t
        simp only [hrec] at h
        cases h
      | error er =>
        simp only [hrec] at h
        cases h
        exact ih _ _ _ hrec

/-- `convert_bits` fails only with `InvalidData` or `InvalidPadding` — in
particular it never yields `HrpMismatch`. -/
theorem convert_bits_error_kinds (data : List Nat) (fr tb : Nat) (pad : Bool) (e : Err)
    (h : convert_bits data fr tb pad = .error e) : e = .InvalidData ∨ e = .InvalidPadding := by
  simp only [convert_bits] at h
  cases hrec : convertLoop fr tb ((1 <<< tb) - 1) data 0 0 with
  | error er =>
    simp only [hrec] at h
    cases h
    exact Or.inl (convertLoop_error _ _ _ _ _ _ _ hrec)
  | ok t =>
    obtain ⟨ret, acc, bits⟩ := t
    simp only [hrec] at h
    cases pad with
    | true =>
      by_cases hb : bits > 0
      · rw [if_pos rfl, if_pos hb] at h
        cases h
      · rw [if_pos rfl, if_neg hb] at h
        cases h
    | false =>
      rw [if_neg (by simp)] at h
      by_cases h1 : bits ≥ fr
      · rw [if_pos h1] at h
        cases h
        exact Or.inr rfl
      · rw [if_neg h1] at h
        by_cases h2 : (acc <<< (tb - bits)) &&& ((1 <<< tb) - 1) ≠ 0
        · rw [if_pos h2] at h
          cases h
          exact Or.inr rfl
        · rw [if_neg h2] at h
          cases h

/-! ### ASCII case lemmas (by computation over the printable range) -/

theorem toLower_toUpper_ascii (c : Char) (h : c.toNat ≤ 126) :
    Char.toLower (Char.toUpper c) = Char.toLower c := by
  have hdec : ∀ n < 127,
      Char.toLower (Char.toUpper (Char.ofNat n)) = Char.toLower (Char.ofNat n) := by decide
  have h2 := hdec c.toNat (by omega)
  rwa [Char.ofNat_toNat] at h2

theorem toLower_fixed_not_upper (c : Char) (h126 : c.toNat ≤ 126) (hfix : Char.toLower c = c) :
    c.isUpper = false := by
  have hdec : ∀ n < 127,
      Char.toLower (Char.ofNat n) = Char.ofNat n → (Char.ofNat n).isUpper = false := by decide
  have h2 := hdec c.toNat (by omega)
  rw [Char.ofNat_toNat] at h2
  exact h2 hfix

/-- Character bound for every character of a rendered string. -/
theorem bech32_full_chars_le (hrp : List Char) (syms : List Nat)
    (hh : lowerValidHrp hrp = true) (hs : ∀ v ∈ syms, v < 32) :
    ∀ c ∈ hrp ++ '1' :: (syms ++ createChecksum hrp syms).map toChar, c.toNat ≤ 126 := by
  obtain ⟨-, hchars⟩ := lowerValidHrp_spec hrp hh
  intro c hc
  rcases List.mem_append.mp hc with hc | hc
  · have h1 := (hchars c hc).1
    simp only [validHrpChar, Bool.and_eq_true, decide_eq_true_eq] at h1
    exact h1.2
  · rcases List.mem_cons.mp hc with rfl | hc
    · decide
    · obtain ⟨v, hv, rfl⟩ := List.mem_map.mp hc
      have hv32 : v < 32 := by
        rcases List.mem_append.mp hv with hv | hv
        · exact hs v hv
        · have := createChecksum_mem hrp syms v hv
          omega
      have hd : ∀ v < 32, (toChar v).toNat ≤ 126 := by decide
      exact hd v hv32

theorem data_ne_nil_of_ne_empty (hrp : String) (h : hrp ≠ "") : hrp.data ≠ [] := by
  intro hc
  apply h
  have h2 : hrp = String.mk hrp.data := rfl
  rw [h2, hc]

theorem isEmpty_false_of_ne_nil (l : List Char) (h : l ≠ []) : l.isEmpty = false := by
  cases l with
  | nil => exact absurd rfl h
  | cons a t => rfl

/-- Totality of `bech32_encode` for byte payloads and a non-empty prefix. -/
theorem bech32_encode_total (hrp : String) (hne : hrp.data ≠ []) (data : List Nat)
    (hd : ∀ v ∈ data, v < 256) : ∃ s, bech32_encode hrp data = some s := by
  have hd' : ∀ v ∈ data, v < 2 ^ 8 := by
    intro v hv
    have := hd v hv
    omega
  obtain ⟨S, hS, -, -, -⟩ := convert_bits_pad_spec 8 5 (by norm_num) data hd'
  refine ⟨String.mk (bech32ToString ⟨hrp.data, S⟩), ?_⟩
  simp only [bech32_encode, hS, new_check_data, isEmpty_false_of_ne_nil hrp.data hne,
    Bool.false_eq_true, if_false]

/-! ## 6. The claims -/

set_option maxRecDepth 100000 in
/-- C9: encoding the payment address with the all-zero 11-byte diversifier
and the fixed deterministic group element (represented by its canonical
serialization) under prefix `"zs"` equals the literal test-vector string,
and decoding that literal reproduces exactly that diversifier and group
element. -/
theorem C9_concrete_vector :
    encode_payment_address listCurveModule "zs" ⟨zeroDiv, pkdBytes⟩ = some mainLit ∧
    decode_payment_address listCurveModule "zs" mainLit = .ok ⟨zeroDiv, pkdBytes⟩ :=
  ⟨rfl, rfl⟩

/-- C10: there is an input to `decode_payment_address` with matching hrp,
valid characters, valid checksum and valid padding whose decoded byte
payload is shorter than 11 bytes (here: empty), and on it the decode does
not return a typed error: the unchecked slice copy of the first 11 bytes
panics. -/
theorem C10_short_payload_panic :
    bech32_decode_bytes "zs" shortLit = .ok [] ∧
    decode_payment_address listCurveModule "zs" shortLit = DResult.panic :=
  ⟨rfl, rfl⟩

/-- C5: the 8-to-5 regrouping with padding is total on byte sequences; the
5-to-8 regrouping without padding fails — always with `InvalidPadding` —
exactly when the leftover bit count reaches the byte width or the leftover
(padding) bits are non-zero; and otherwise (in particular on every padded
forward image) it returns the original bytes. -/
theorem C5_regroup :
    (∀ data : List Nat, (∀ v ∈ data, v < 256) → ∃ S, convert_bits data 8 5 true = .ok S) ∧
    (∀ S : List Nat, (∀ v ∈ S, v < 32) →
      ((convert_bits S 5 8 false = .error Err.InvalidPadding
        ↔ 5 ≤ 5 * S.length % 8 ∨ val 5 S % 2 ^ (5 * S.length % 8) ≠ 0) ∧
       (∀ e, convert_bits S 5 8 false = .error e → e = Err.InvalidPadding))) ∧
    (∀ data S : List Nat, (∀ v ∈ data, v < 256) → convert_bits data 8 5 true = .ok S →
      convert_bits S 5 8 false = .ok data) := by
  refine ⟨?_, ?_, ?_⟩
  · intro data hd
    obtain ⟨S, hS, -, -, -⟩ := convert_bits_pad_spec 8 5 (by norm_num) data
      (by intro v hv; have := hd v hv; omega)
    exact ⟨S, hS⟩
  · intro S hs
    have hs' : ∀ v ∈ S, v < 2 ^ 5 := by
      intro v hv
      have := hs v hv
      omega
    obtain ⟨hiff, herr, -⟩ := convert_bits_nopad_spec 5 8 (by norm_num) S hs'
    exact ⟨hiff, herr⟩
  · intro data S hd henc
    exact convert_bits_roundtrip 8 5 (by norm_num) (by norm_num) data S
      (by intro v hv; have := hd v hv; omega) henc

theorem C5_regroup_witness :
    (∃ S, convert_bits [255] 8 5 true = .ok S) ∧
    (convert_bits [31] 5 8 false = .error Err.InvalidPadding
      ↔ 5 ≤ 5 * [31].length % 8 ∨ val 5 [31] % 2 ^ (5 * [31].length % 8) ≠ 0) ∧
    convert_bits [31, 28] 5 8 false = .ok [255] :=
  ⟨C5_regroup.1 [255] (by decide),
   (C5_regroup.2.1 [31] (by decide)).1,
   C5_regroup.2.2 [255] [31, 28] (by decide) (by rfl)⟩

/-- C3: on any input whose checksum and payload pipeline yields a byte
payload long enough to carry a group element, if the curve reader succeeds
but the point is not of prime order the decode fails with `NotPrimeOrder`,
and if the reader itself fails the decode fails with `PointDecodingError`. -/
theorem C3_prime_order_errors {P : Type} (M : CurveModule P) (hrp s : String)
    (data : List Nat) (hdec : bech32_decode_bytes hrp s = .ok data)
    (hlen : 11 ≤ data.length) :
    (∀ p, M.read (data.drop 11) = .ok p → M.asPrimeOrder p = none →
      decode_payment_address M hrp s = .err .NotPrimeOrder) ∧
    (∀ e, M.read (data.drop 11) = .error e →
      decode_payment_address M hrp s = .err .PointDecodingError) := by
  constructor
  · intro p hp hpo
    simp only [decode_payment_address, bech32_decode, hdec]
    rw [if_neg (by omega)]
    simp only [hp, hpo]
  · intro e he
    simp only [decode_payment_address, bech32_decode, hdec]
    rw [if_neg (by omega)]
    simp only [he]

set_option maxRecDepth 100000 in
theorem C3_prime_order_errors_witness :
    decode_payment_address smallOrderCurveModule "zs" mainLit = .err .NotPrimeOrder ∧
    decode_payment_address failCurveModule "zs" mainLit = .err .PointDecodingError := by
  constructor
  · exact (C3_prime_order_errors smallOrderCurveModule "zs" mainLit (zeroDiv ++ pkdBytes)
      (by rfl) (by decide)).1 pkdBytes (by rfl) rfl
  · exact (C3_prime_order_errors failCurveModule "zs" mainLit (zeroDiv ++ pkdBytes)
      (by rfl) (by decide)).2 () rfl

/-- C8: every successful `decode_payment_address` splits the byte payload
into exactly the first 11 bytes (the diversifier, copied verbatim and
unvalidated) and the remainder, which is fed to the group-element reader;
and `encode_payment_address` feeds exactly the 11 diversifier bytes followed
by the group element's canonical serialization into the text codec. -/
theorem C8_payload_layout {P : Type} (M : CurveModule P) (hrp : String) :
    (∀ (s : String) (data : List Nat) (addr : PaymentAddress P),
      bech32_decode_bytes hrp s = .ok data →
      decode_payment_address M hrp s = .ok addr →
      11 ≤ data.length ∧ addr.diversifier = data.take 11 ∧
      ∃ p, M.read (data.drop 11) = .ok p ∧ M.asPrimeOrder p = some addr.pk_d) ∧
    (∀ addr : PaymentAddress P,
      encode_payment_address M hrp addr
        = bech32_encode hrp (addr.diversifier ++ M.write addr.pk_d)) := by
  constructor
  · intro s data addr hdec hok
    simp only [decode_payment_address, bech32_decode, hdec] at hok
    by_cases hlen : data.length < 11
    · rw [if_pos hlen] at hok
      cases hok
    · rw [if_neg hlen] at hok
      refine ⟨by omega, ?_⟩
      cases hread : M.read (data.drop 11) with
      | ok p =>
        simp only [hread] at hok
        cases hpo : M.asPrimeOrder p with
        | some pk =>
          simp only [hpo] at hok
          cases hok
          exact ⟨rfl, p, rfl, hpo⟩
        | none =>
          simp only [hpo] at hok
          cases hok
      | error e =>
        simp only [hread] at hok
        cases hok
  · intro addr
    rfl

set_option maxRecDepth 100000 in
theorem C8_payload_layout_witness :
    (11 ≤ (zeroDiv ++ pkdBytes).length ∧
      (⟨zeroDiv, pkdBytes⟩ : PaymentAddress (List Nat)).diversifier
        = (zeroDiv ++ pkdBytes).take 11 ∧
      ∃ p, listCurveModule.read ((zeroDiv ++ pkdBytes).drop 11) = .ok p ∧
        listCurveModule.asPrimeOrder p
          = some (⟨zeroDiv, pkdBytes⟩ : PaymentAddress (List Nat)).pk_d) ∧
    encode_payment_address listCurveModule "zs" ⟨zeroDiv, pkdBytes⟩
      = bech32_encode "zs" (zeroDiv ++ pkdBytes) :=
  ⟨(C8_payload_layout listCurveModule "zs").1 mainLit (zeroDiv ++ pkdBytes)
      ⟨zeroDiv, pkdBytes⟩ (by rfl) (by rfl),
   (C8_payload_layout listCurveModule "zs").2 ⟨zeroDiv, pkdBytes⟩⟩

/-- C1: for every valid entity — extended spending key, extended full
viewing key, or payment address (valid: byte-valued serialization that the
external deserializer inverts, and for the address an 11-byte diversifier
and a prime-order group element) — and every correct (non-empty,
printable-ASCII, lower-case) hrp, decoding the encoding succeeds and
returns the entity. -/
theorem C1_roundtrip {K1 K2 P : Type}
    (MK : KeyModule K1) (MV : KeyModule K2) (MC : CurveModule P)
    (hrp : String) (hhrp : lowerValidHrp hrp.data = true)
    (sk : K1) (hskb : ∀ b ∈ MK.write sk, b < 256)
    (hskr : MK.read (MK.write sk) = .ok sk)
    (vk : K2) (hvkb : ∀ b ∈ MV.write vk, b < 256)
    (hvkr : MV.read (MV.write vk) = .ok vk)
    (addr : PaymentAddress P) (hdl : addr.diversifier.length = 11)
    (hdb : ∀ b ∈ addr.diversifier, b < 256)
    (hpb : ∀ b ∈ MC.write addr.pk_d, b < 256)
    (hpr : MC.read (MC.write addr.pk_d) = .ok addr.pk_d)
    (hpo : MC.asPrimeOrder addr.pk_d = some addr.pk_d) :
    (∃ s, encode_extended_spending_key MK hrp sk = some s ∧
      decode_extended_spending_key MK hrp s = .ok sk) ∧
    (∃ s, encode_extended_full_viewing_key MV hrp vk = some s ∧
      decode_extended_full_viewing_key MV hrp s = .ok vk) ∧
    (∃ s, encode_payment_address MC hrp addr = some s ∧
      decode_payment_address MC hrp s = .ok addr) := by
  refine ⟨?_, ?_, ?_⟩
  · obtain ⟨s, henc, hdec⟩ := bech32_roundtrip hrp hhrp (MK.write sk) hskb
    refine ⟨s, henc, ?_⟩
    simp only [decode_extended_spending_key, bech32_decode, hdec, hskr]
  · obtain ⟨s, henc, hdec⟩ := bech32_roundtrip hrp hhrp (MV.write vk) hvkb
    refine ⟨s, henc, ?_⟩
    simp only [decode_extended_full_viewing_key, bech32_decode, hdec, hvkr]
  · obtain ⟨s, henc, hdec⟩ := bech32_roundtrip hrp hhrp
      (addr.diversifier ++ MC.write addr.pk_d) (by
        intro b hb
        rcases List.mem_append.mp hb with hb | hb
        · exact hdb b hb
        · exact hpb b hb)
    refine ⟨s, henc, ?_⟩
    simp only [decode_payment_address, bech32_decode, hdec]
    rw [if_neg (by rw [List.length_append, hdl]; omega)]
    have hdrop : (addr.diversifier ++ MC.write addr.pk_d).drop 11 = MC.write addr.pk_d := by
      rw [← hdl, List.drop_left]
    have htake : (addr.diversifier ++ MC.write addr.pk_d).take 11 = addr.diversifier := by
      rw [← hdl, List.take_left]
    simp only [hdrop, hpr, hpo, htake]

theorem C1_roundtrip_witness :
    (∃ s, encode_extended_spending_key blobKeyModule "zs" [7] = some s ∧
      decode_extended_spending_key blobKeyModule "zs" s = .ok [7]) ∧
    (∃ s, encode_extended_full_viewing_key blobKeyModule "zs" [9, 8] = some s ∧
      decode_extended_full_viewing_key blobKeyModule "zs" s = .ok [9, 8]) ∧
    (∃ s, encode_payment_address listCurveModule "zs" ⟨zeroDiv, pkdBytes⟩ = some s ∧
      decode_payment_address listCurveModule "zs" s = .ok ⟨zeroDiv, pkdBytes⟩) :=
  C1_roundtrip blobKeyModule blobKeyModule listCurveModule "zs" (by decide)
    [7] (by decide) rfl [9, 8] (by decide) rfl
    ⟨zeroDiv, pkdBytes⟩ (by decide) (by decide) (by decide) rfl rfl

/-- C2 counterexample: `"ZS"` and `"zs"` are two distinct prefixes, the
entity `[0]` is valid, the encode under `"ZS"` succeeds — but decoding its
output with expected hrp `"zs"` fails with `InvalidChecksum`, not with
`HrpMismatch`: the encoder lower-cases its rendering, so the checksum it
embedded (computed over `"ZS"`) no longer verifies, and the pipeline fails
before the prefix comparison is reached. -/
theorem C2_network_counterexample :
    ("ZS" : String) ≠ "zs" ∧
    (encode_extended_spending_key blobKeyModule "ZS" [0]).isSome = true ∧
    decode_extended_spending_key blobKeyModule "zs"
      ((encode_extended_spending_key blobKeyModule "ZS" [0]).getD "")
      = .err .InvalidChecksum :=
  ⟨by decide, rfl, rfl⟩

/-- C2 (amended): for every canonical (non-empty, printable-ASCII,
lower-case) prefix `hrp1`, every byte payload (hence every valid entity) and
every prefix `hrp2 ≠ hrp1`, decoding the `hrp1`-encoding with expected
prefix `hrp2` fails with `HrpMismatch`, whatever the entity reader. -/
theorem C2_network_discrimination {T : Type} (hrp1 hrp2 : String)
    (hh : lowerValidHrp hrp1.data = true) (hne : hrp2 ≠ hrp1)
    (data : List Nat) (hd : ∀ b ∈ data, b < 256) (read : List Nat → DResult T) :
    ∃ s, bech32_encode hrp1 data = some s ∧
      bech32_decode hrp2 s read = .err .HrpMismatch := by
  obtain ⟨S, henc, -, -, hparse, -⟩ := bech32_encode_parse hrp1 hh data hd
  refine ⟨_, henc, ?_⟩
  simp only [bech32_decode, bech32_decode_bytes, hparse]
  have hne2 : ¬ (⟨hrp1.data, S⟩ : Bech32Obj).hrp = hrp2.data := by
    intro hc
    apply hne
    have hc' : hrp1.data = hrp2.data := hc
    calc hrp2 = String.mk hrp2.data := rfl
      _ = String.mk hrp1.data := by rw [hc']
      _ = hrp1 := rfl
  rw [if_neg hne2]

theorem C2_network_discrimination_witness :
    ∃ s, bech32_encode "zs" [0] = some s ∧
      bech32_decode "ZS" s (fun d => DResult.ok d) = .err .HrpMismatch :=
  C2_network_discrimination "zs" "ZS" (by decide) (by decide) [0] (by decide)
    (fun d => DResult.ok d)

set_option maxRecDepth 100000 in
/-- C4 counterexample: the parsed prefix of the test-vector string is `zs`,
which equals the caller's expected hrp `ZS` up to ASCII case, and the
checksum and payload are otherwise valid — yet the decode fails with
`HrpMismatch` instead of succeeding: the caller-side comparison is an exact
string comparison against the lower-cased parsed prefix. -/
theorem C4_hrp_case_counterexample :
    ("ZS" : String).data.map Char.toLower = "zs".data ∧ parsedHrp mainLit = "zs".data ∧
    bech32_decode "ZS" mainLit (fun d => DResult.ok d) = .err .HrpMismatch :=
  ⟨rfl, rfl, rfl⟩

/-- C4 (amended): for every string that parses (valid characters and
checksum), the decode pipeline fails with `HrpMismatch` exactly when the
parsed — lower-cased — prefix differs from the caller's expected hrp as an
exact string; when they are exactly equal the pipeline proceeds to the
payload regrouping.  Case is normalised on the input string only, never on
the caller's hrp. -/
theorem C4_hrp_match (hrp s : String) (obj : Bech32Obj)
    (hp : from_str_lenient s = .ok obj) :
    (bech32_decode_bytes hrp s = .error .HrpMismatch ↔ obj.hrp ≠ hrp.data) ∧
    (obj.hrp = hrp.data → bech32_decode_bytes hrp s = convert_bits obj.data 5 8 false) := by
  have hbase : bech32_decode_bytes hrp s
      = if obj.hrp = hrp.data then convert_bits obj.data 5 8 false
        else .error .HrpMismatch := by
    simp only [bech32_decode_bytes, hp]
  constructor
  · constructor
    · intro hfail hc
      rw [hbase, if_pos hc] at hfail
      rcases convert_bits_error_kinds _ _ _ _ _ hfail with h | h <;> cases h
    · intro hne
      rw [hbase, if_neg hne]
  · intro hc
    rw [hbase, if_pos hc]

theorem C4_hrp_match_witness :
    (bech32_decode_bytes "zs" shortLit = .error .HrpMismatch
      ↔ (⟨['z', 's'], []⟩ : Bech32Obj).hrp ≠ "zs".data) ∧
    ((⟨['z', 's'], []⟩ : Bech32Obj).hrp = "zs".data →
      bech32_decode_bytes "zs" shortLit = convert_bits [] 5 8 false) :=
  C4_hrp_match "zs" shortLit ⟨['z', 's'], []⟩ rfl

/-- C6: for every byte payload (hence every valid entity) and correct
lower-case hrp, the canonical output of encode contains no upper-case
character, and decoding the upper-cased encoding succeeds and yields the
same result as decoding the canonical encoding — both at the byte-payload
level and for every entity reader. -/
theorem C6_case_insensitive (hrp : String) (hh : lowerValidHrp hrp.data = true)
    (data : List Nat) (hd : ∀ v ∈ data, v < 256) :
    ∃ s, bech32_encode hrp data = some s ∧
      (∀ c ∈ s.data, c.isUpper = false) ∧
      bech32_decode_bytes hrp (strToUpper s) = .ok data ∧
      bech32_decode_bytes hrp s = .ok data ∧
      (∀ (T : Type) (read : List Nat → DResult T),
        bech32_decode hrp (strToUpper s) read = bech32_decode hrp s read) := by
  obtain ⟨S, henc, hS, hmemS, hparse, hback⟩ := bech32_encode_parse hrp hh data hd
  have heqfull : bech32ToString ⟨hrp.data, S⟩
      = hrp.data ++ '1' :: (S ++ createChecksum hrp.data S).map toChar :=
    bech32ToString_eq hrp.data S hh hmemS
  have hfixed := bech32ToString_fixed hrp.data S hh hmemS
  have hle := bech32_full_chars_le hrp.data S hh hmemS
  have hup : bech32_decode_bytes hrp
      (strToUpper (String.mk (bech32ToString ⟨hrp.data, S⟩))) = .ok data := by
    have hupper : ((bech32ToString ⟨hrp.data, S⟩).map Char.toUpper).map
        Char.toLower = hrp.data ++ '1' :: (S ++ createChecksum hrp.data S).map toChar := by
      rw [heqfull, List.map_map]
      have h1 : (hrp.data ++ '1' :: (S ++ createChecksum hrp.data S).map toChar).map
          (Char.toLower ∘ Char.toUpper)
          = (hrp.data ++ '1' :: (S ++ createChecksum hrp.data S).map toChar).map
            Char.toLower := by
        apply List.map_congr_left
        intro c hc
        exact toLower_toUpper_ascii c (hle c hc)
      rw [h1]
      exact map_eq_self_of_fixed _ _ hfixed
    have hparse2 : fromStrAux ((bech32ToString ⟨hrp.data, S⟩).map Char.toUpper)
        = .ok ⟨hrp.data, S⟩ := fromStrAux_of_lower _ hrp.data S hh hmemS hupper
    have hbridge : (strToUpper (String.mk (bech32ToString ⟨hrp.data, S⟩))).data
        = (bech32ToString ⟨hrp.data, S⟩).map Char.toUpper := rfl
    simp only [bech32_decode_bytes, from_str_lenient, hbridge, hparse2]
    rw [if_pos trivial]
    exact hback
  have hlo : bech32_decode_bytes hrp (String.mk (bech32ToString ⟨hrp.data, S⟩)) = .ok data := by
    simp only [bech32_decode_bytes, hparse]
    rw [if_pos trivial]
    exact hback
  refine ⟨String.mk (bech32ToString ⟨hrp.data, S⟩), henc, ?_, hup, hlo, ?_⟩
  · intro c hc
    rw [show (String.mk (bech32ToString ⟨hrp.data, S⟩)).data
        = bech32ToString ⟨hrp.data, S⟩ from rfl, heqfull] at hc
    exact toLower_fixed_not_upper c (hle c hc) (hfixed c hc)
  · intro T read
    simp only [bech32_decode, hup, hlo]

theorem C6_case_insensitive_witness :
    ∃ s, bech32_encode "zs" [1, 2] = some s ∧
      (∀ c ∈ s.data, c.isUpper = false) ∧
      bech32_decode_bytes "zs" (strToUpper s) = .ok [1, 2] ∧
      bech32_decode_bytes "zs" s = .ok [1, 2] ∧
      (∀ (T : Type) (read : List Nat → DResult T),
        bech32_decode "zs" (strToUpper s) read = bech32_decode "zs" s read) :=
  C6_case_insensitive "zs" (by decide) [1, 2] (by decide)

/-- C7 counterexample: with the empty hrp the encoder does not return a
string — `new_check_data` fails and the source's
`expect("hrp is not empty")` panics (modelled as `none`). -/
theorem C7_total_counterexample :
    encode_extended_spending_key blobKeyModule "" [] = none := rfl

/-- C7 (amended): for every in-memory entity (byte-valued serialization) and
every NON-EMPTY hrp, the three encode functions return a text string: no
error result and no panic. -/
theorem C7_encode_total {K1 K2 P : Type}
    (MK : KeyModule K1) (MV : KeyModule K2) (MC : CurveModule P)
    (hrp : String) (hne : hrp ≠ "")
    (sk : K1) (hskb : ∀ b ∈ MK.write sk, b < 256)
    (vk : K2) (hvkb : ∀ b ∈ MV.write vk, b < 256)
    (addr : PaymentAddress P)
    (hab : ∀ b ∈ addr.diversifier ++ MC.write addr.pk_d, b < 256) :
    (∃ s, encode_extended_spending_key MK hrp sk = some s) ∧
    (∃ s, encode_extended_full_viewing_key MV hrp vk = some s) ∧
    (∃ s, encode_payment_address MC hrp addr = some s) := by
  have hd := data_ne_nil_of_ne_empty hrp hne
  exact ⟨bech32_encode_total hrp hd _ hskb, bech32_encode_total hrp hd _ hvkb,
    bech32_encode_total hrp hd _ hab⟩

theorem C7_encode_total_witness :
    (∃ s, encode_extended_spending_key blobKeyModule "zs" [3] = some s) ∧
    (∃ s, encode_extended_full_viewing_key blobKeyModule "zs" [] = some s) ∧
    (∃ s, encode_payment_address listCurveModule "zs" ⟨zeroDiv, pkdBytes⟩ = some s) :=
  C7_encode_total blobKeyModule blobKeyModule listCurveModule "zs" (by decide)
    [3] (by decide) [] (by decide) ⟨zeroDiv, pkdBytes⟩ (by decide)
